import Mathlib

/-!
Shallow embedding of the Iterative-Hard-Thresholding notebook
(`Iterative_Hard_Thresholding.ipynb`).

The notebook trains a sparse multinomial softmax regression over
one-hot-encoded categorical features and enforces, each iteration, a
group-sparsity budget `s` via a hard-thresholding operator acting on whole
one-hot groups.  The embedding below translates, cell by cell:

* cell 22: `indices = np.insert(np.cumsum(classCount), 0, 0)` → `IHT.indicesOf`
  (over `ℤ`, as numpy integer arrays) and the `ℕ`-valued offset function
  `IHT.ofs` used by the thresholding internals;
* cell 25: `aggregateFeature` / `thresholding` → `IHT.colMag`, `IHT.score`,
  `IHT.rank`, `IHT.selG`, `IHT.selCol`, `IHT.thresholding`,
  `IHT.thresholdDiag`, `IHT.thresholdingInputAfter`;
* cell 20: `classW` / `classWL` → `IHT.classW`, `IHT.classWL`
  (the sklearn `compute_class_weight('balanced', ...)` kernel is external
  library code; it is modelled from the spec's formula);
* cell 27: `regression` / `regressionTest` → `IHT.regression`,
  `IHT.regressionTest` over `ℝ` (the source computes with `exp`/`log`);
* cell 29: the training loop → `IHT.trainGo`, `IHT.trainTrace`,
  `IHT.trainFinal` (the loss and gradient kernels, delegated in the source
  to jax, are oracle parameters; the loop skeleton — a straight-line body
  with no break and no exception path — is what is embedded).

Representation choices.  A `numClasses × DIM` numpy array is embedded as a
total function `ℕ → ℕ → ℚ`; the program only ever reads or writes entries
`(i, j)` with `i < numClasses` and `j < DIM = sum classCount`, and every
write the source performs (`copyCof[:, notSelected] = 0` with
`notSelected ⊆ range(DIM)`) is guarded accordingly in the embedding, so
entries outside the array region pass through unchanged.  The notebook
computes with IEEE doubles; the embedding uses `ℚ` for the
thresholding/loop layer (only `+`, `-`, `*`, `abs`, comparison and division
by a group size occur there) and `ℝ` for the softmax layer, whose
`exp`/`log` are transcendental.
-/

namespace IHT

/-- Python slice semantics of `l[-s:]` for a natural `s`: for `s = 0` the
slice `l[-0:]` is `l[0:]`, the whole list; for `s > 0` it is the suffix of
the last `min s (length l)` elements. -/
def pySliceLast (s : ℕ) (l : List α) : List α :=
  if s = 0 then l else l.drop (l.length - s)

/-- From cell 22: `indices = np.cumsum(classCount); indices = np.insert(indices, 0, 0)`.
The cumulative boundary vector with a leading zero (`GroupIndex`):
`[0, c₀, c₀+c₁, …, Σ cᵢ]`. -/
def indicesOf (cc : List ℤ) : List ℤ :=
  List.scanl (· + ·) 0 cc

/-- Value of `indices[k]` for a `ℕ`-valued cardinality list: the sum of the
first `k` cardinalities.  The thresholding internals read `indices[j]` and
`indices[j+1]` for group `j`. -/
def ofs (cc : List ℕ) (k : ℕ) : ℕ :=
  (cc.take k).sum

/-- Coefficient matrices: `numClasses × DIM` arrays, embedded as total
functions (see the representation note in the module docstring). -/
abbrev Mat := ℕ → ℕ → ℚ

/-- From cell 25, `thresholding`: `coeff = np.sum(np.abs(np.array(coeff)), axis=0)` —
column-wise sum of absolute coefficient values across the `numClasses` rows. -/
def colMag (K : ℕ) (B : Mat) (j : ℕ) : ℚ :=
  ∑ i ∈ Finset.range K, |B i j|

/-- From cell 25, `aggregateFeature`: the score of group `g` is
`np.mean(np.abs(gradients[current : current + i]))` where the slice is the
group's column range `[indices[g], indices[g+1])` and `i = classCount[g]` —
the sum of absolute column magnitudes over the group divided by the group's
cardinality. -/
def score (K : ℕ) (cc : List ℕ) (B : Mat) (g : ℕ) : ℚ :=
  (∑ j ∈ Finset.Ico (ofs cc g) (ofs cc (g + 1)), |colMag K B j|) / (cc.getD g 0 : ℚ)

/-- Sort key used by `np.argsort(np.abs(sum_coeff))` in cell 25: the absolute
value of the group score. -/
def key (K : ℕ) (cc : List ℕ) (B : Mat) (g : ℕ) : ℚ :=
  |score K cc B g|

/-- From cell 25: `np.argsort(np.abs(sum_coeff)).ravel()` — the group indices
`0, …, F-1` in ascending order of key.  numpy's default sort is an unstable
introsort whose tie order is implementation-defined; a stable insertion sort
realises one admissible order, and no theorem below depends on the tie order
beyond sortedness and being a permutation of the group indices. -/
def rank (K : ℕ) (cc : List ℕ) (B : Mat) : List ℕ :=
  List.insertionSort (fun a b => key K cc B a ≤ key K cc B b) (List.range cc.length)

/-- From cell 25: `rankingBest = np.argsort(...)[-s:]` — the selected groups,
the last `s` entries of the ascending ranking (Python slice semantics). -/
def selG (K : ℕ) (cc : List ℕ) (s : ℕ) (B : Mat) : List ℕ :=
  pySliceLast s (rank K cc B)

/-- Membership of column `j` in the retained column set
`selected = set(i for g in rankingBest for i in range(indices[g], indices[g+1]))`. -/
def selCol (K : ℕ) (cc : List ℕ) (s : ℕ) (B : Mat) (j : ℕ) : Bool :=
  (selG K cc s B).any (fun g => decide (ofs cc g ≤ j) && decide (j < ofs cc (g + 1)))

/-- From cell 25, `thresholding`: the returned matrix.  The source assigns
`copyCof[:, notSelected] = 0` with `notSelected = set(range(DIM)) - selected`
and returns `copyCof`: columns of `range(DIM)` outside the retained set are
zeroed, all other entries keep their input values. -/
def thresholding (K : ℕ) (cc : List ℕ) (s : ℕ) (B : Mat) : Mat :=
  fun i j => if j < cc.sum ∧ selCol K cc s B j = false then 0 else B i j

/-- The diagnostic branch of cell 25:
`if rankingBest.shape[0] < s: print("rankBest less than s features")` —
`true` exactly when the diagnostic line is printed on this call. -/
def thresholdDiag (K : ℕ) (cc : List ℕ) (s : ℕ) (B : Mat) : Bool :=
  decide ((selG K cc s B).length < s)

/-- Content of the caller's array after `thresholding` returns.  In the
source, `copyCof = coeff[:]` takes a numpy basic slice of the argument — a
view sharing the argument's buffer — so the fancy-index assignment
`copyCof[:, notSelected] = 0` writes through the view into the caller's
array: after the call, the caller's array holds its pre-call values on the
retained columns and `0` on every column of `range(DIM)` outside them. -/
def thresholdingInputAfter (K : ℕ) (cc : List ℕ) (s : ℕ) (B : Mat) : Mat :=
  fun i j =>
    if j < cc.sum ∧
        (selG K cc s B).any (fun g => decide (ofs cc g ≤ j) && decide (j < ofs cc (g + 1))) = false
    then 0 else B i j

/-- Group `g` is non-all-zero in `B`: some entry of the group's column range
holds a non-zero coefficient in some class row. -/
def grpNonzero (K : ℕ) (cc : List ℕ) (B : Mat) (g : ℕ) : Prop :=
  ∃ i < K, ∃ j, ofs cc g ≤ j ∧ j < ofs cc (g + 1) ∧ B i j ≠ 0

instance (K : ℕ) (cc : List ℕ) (B : Mat) (g : ℕ) : Decidable (grpNonzero K cc B g) := by
  unfold grpNonzero
  have : (∃ i < K, ∃ j, ofs cc g ≤ j ∧ j < ofs cc (g + 1) ∧ B i j ≠ 0) ↔
      (∃ i < K, ∃ j ∈ Finset.Ico (ofs cc g) (ofs cc (g + 1)), B i j ≠ 0) := by
    constructor
    · rintro ⟨i, hi, j, h1, h2, h3⟩
      exact ⟨i, hi, j, Finset.mem_Ico.2 ⟨h1, h2⟩, h3⟩
    · rintro ⟨i, hi, j, hj, h3⟩
      exact ⟨i, hi, j, (Finset.mem_Ico.1 hj).1, (Finset.mem_Ico.1 hj).2, h3⟩
  exact decidable_of_iff _ this.symm

/-! Supporting lemmas about the group structure (offsets partition the
column range `[0, DIM)` into the contiguous groups). -/

theorem ofs_zero (cc : List ℕ) : ofs cc 0 = 0 := rfl

theorem ofs_succ (cc : List ℕ) (g : ℕ) (h : g < cc.length) :
    ofs cc (g + 1) = ofs cc g + cc.getD g 0 := by
  unfold ofs
  rw [List.getD_eq_getElem _ _ h]
  exact List.sum_take_succ cc g h

theorem ofs_mono (cc : List ℕ) {k k' : ℕ} (h : k ≤ k') : ofs cc k ≤ ofs cc k' := by
  unfold ofs
  rw [show cc.take k = (cc.take k').take k by rw [List.take_take, Nat.min_eq_left h]]
  conv_rhs => rw [← List.take_append_drop k (cc.take k')]
  rw [List.sum_append]
  exact Nat.le_add_right _ _

theorem ofs_le_sum (cc : List ℕ) (k : ℕ) : ofs cc k ≤ cc.sum := by
  unfold ofs
  conv_rhs => rw [← List.take_append_drop k cc]
  rw [List.sum_append]
  exact Nat.le_add_right _ _

theorem ofs_of_length_le (cc : List ℕ) {k : ℕ} (h : cc.length ≤ k) : ofs cc k = cc.sum := by
  unfold ofs
  rw [List.take_of_length_le h]

/-- Every column index below `DIM` lies in exactly one group's range; this is
the existence half. -/
theorem grp_cover (cc : List ℕ) {j : ℕ} (h : j < cc.sum) :
    ∃ g < cc.length, ofs cc g ≤ j ∧ j < ofs cc (g + 1) := by
  induction cc generalizing j with
  | nil => simp at h
  | cons c t ih =>
    rcases Nat.lt_or_ge j c with hj | hj
    · refine ⟨0, Nat.succ_pos _, Nat.zero_le _, ?_⟩
      simpa [ofs, List.take] using hj
    · have h' : j - c < t.sum := by
        have : j < c + t.sum := by simpa [List.sum_cons] using h
        omega
      obtain ⟨g, hg, h1, h2⟩ := ih h'
      refine ⟨g + 1, by simpa using Nat.succ_lt_succ hg, ?_, ?_⟩
      · have : ofs (c :: t) (g + 1) = c + ofs t g := by simp [ofs, List.take]
        omega
      · have : ofs (c :: t) (g + 1 + 1) = c + ofs t (g + 1) := by simp [ofs, List.take]
        omega

/-- Membership in a group's column range forces the group index to be a real
group: for `g ≥ F` the range `[indices[g], indices[g+1])` is empty. -/
theorem grp_lt_of_mem (cc : List ℕ) {g j : ℕ} (h1 : ofs cc g ≤ j) (h2 : j < ofs cc (g + 1)) :
    g < cc.length := by
  by_contra hg
  push_neg at hg
  rw [ofs_of_length_le cc hg, ofs_of_length_le cc (Nat.le_succ_of_le hg)] at *
  omega

/-- Uniqueness half: the group ranges are pairwise disjoint. -/
theorem grp_unique (cc : List ℕ) {g g' j : ℕ}
    (h1 : ofs cc g ≤ j) (h2 : j < ofs cc (g + 1))
    (h1' : ofs cc g' ≤ j) (h2' : j < ofs cc (g' + 1)) : g = g' := by
  rcases Nat.lt_trichotomy g g' with h | h | h
  · exact absurd (lt_of_lt_of_le h2 (le_trans (ofs_mono cc h) h1')) (lt_irrefl j)
  · exact h
  · exact absurd (lt_of_lt_of_le h2' (le_trans (ofs_mono cc h) h1)) (lt_irrefl j)

/-! Supporting lemmas about the ranking and the selected-group suffix. -/

theorem rank_perm (K : ℕ) (cc : List ℕ) (B : Mat) :
    (rank K cc B).Perm (List.range cc.length) :=
  List.perm_insertionSort _ _

theorem rank_length (K : ℕ) (cc : List ℕ) (B : Mat) :
    (rank K cc B).length = cc.length := by
  rw [(rank_perm K cc B).length_eq, List.length_range]

theorem rank_nodup (K : ℕ) (cc : List ℕ) (B : Mat) : (rank K cc B).Nodup :=
  (rank_perm K cc B).nodup_iff.2 (List.nodup_range _)

theorem mem_rank (K : ℕ) (cc : List ℕ) (B : Mat) {g : ℕ} :
    g ∈ rank K cc B ↔ g < cc.length := by
  rw [(rank_perm K cc B).mem_iff, List.mem_range]

theorem rank_sorted (K : ℕ) (cc : List ℕ) (B : Mat) :
    (rank K cc B).Pairwise (fun a b => key K cc B a ≤ key K cc B b) := by
  haveI : IsTotal ℕ (fun a b => key K cc B a ≤ key K cc B b) := ⟨fun a b => le_total _ _⟩
  haveI : IsTrans ℕ (fun a b => key K cc B a ≤ key K cc B b) := ⟨fun a b c => le_trans⟩
  exact List.sorted_insertionSort _ _

theorem selG_sublist (K : ℕ) (cc : List ℕ) (s : ℕ) (B : Mat) :
    (selG K cc s B).Sublist (rank K cc B) := by
  unfold selG pySliceLast
  split
  · exact List.Sublist.refl _
  · exact List.drop_sublist _ _

theorem selG_nodup (K : ℕ) (cc : List ℕ) (s : ℕ) (B : Mat) : (selG K cc s B).Nodup :=
  (selG_sublist K cc s B).nodup (rank_nodup K cc B)

theorem mem_selG_lt (K : ℕ) (cc : List ℕ) (s : ℕ) (B : Mat) {g : ℕ}
    (h : g ∈ selG K cc s B) : g < cc.length :=
  (mem_rank K cc B).1 ((selG_sublist K cc s B).mem h)

theorem selG_length (K : ℕ) (cc : List ℕ) (s : ℕ) (B : Mat) :
    (selG K cc s B).length = if s = 0 then cc.length else cc.length - (cc.length - s) := by
  unfold selG pySliceLast
  split
  · simpa using rank_length K cc B
  · simp [rank_length K cc B]

/-- Every ranked group outside the selected suffix scores no higher (in key
order) than every selected group: the selected suffix is a top-`s` choice. -/
theorem key_le_of_not_selG (K : ℕ) (cc : List ℕ) (s : ℕ) (B : Mat) {g h : ℕ}
    (hg : g < cc.length) (hgn : g ∉ selG K cc s B) (hh : h ∈ selG K cc s B) :
    key K cc B g ≤ key K cc B h := by
  have hs : s ≠ 0 := by
    intro hs0
    exact hgn (by simpa [selG, pySliceLast, hs0] using (mem_rank K cc B).2 hg)
  have hsplit : (rank K cc B).take ((rank K cc B).length - s) ++ selG K cc s B = rank K cc B := by
    simp [selG, pySliceLast, hs]
  have hgr : g ∈ rank K cc B := (mem_rank K cc B).2 hg
  rw [← hsplit] at hgr
  rcases List.mem_append.1 hgr with hgt | hgs
  · have hp := rank_sorted K cc B
    rw [← hsplit] at hp
    exact (List.pairwise_append.1 hp).2.2 g hgt h hh
  · exact absurd hgs hgn

/-! Supporting lemmas about scores of a matrix and of its thresholded image. -/

theorem score_nonneg (K : ℕ) (cc : List ℕ) (B : Mat) (g : ℕ) : 0 ≤ score K cc B g := by
  unfold score
  apply div_nonneg
  · exact Finset.sum_nonneg fun j _ => abs_nonneg _
  · exact_mod_cast Nat.zero_le _

theorem key_eq_score (K : ℕ) (cc : List ℕ) (B : Mat) (g : ℕ) :
    key K cc B g = score K cc B g :=
  abs_of_nonneg (score_nonneg K cc B g)

theorem selCol_eq_true_iff (K : ℕ) (cc : List ℕ) (s : ℕ) (B : Mat) (j : ℕ) :
    selCol K cc s B j = true ↔
      ∃ g ∈ selG K cc s B, ofs cc g ≤ j ∧ j < ofs cc (g + 1) := by
  simp [selCol]

/-- Columns of a selected group pass through `thresholding` unchanged (for
every class row). -/
theorem thresholding_apply_selected (K : ℕ) (cc : List ℕ) (s : ℕ) (B : Mat) {g j : ℕ}
    (hg : g ∈ selG K cc s B) (h1 : ofs cc g ≤ j) (h2 : j < ofs cc (g + 1)) (i : ℕ) :
    thresholding K cc s B i j = B i j := by
  have hsel : selCol K cc s B j = true := (selCol_eq_true_iff K cc s B j).2 ⟨g, hg, h1, h2⟩
  simp [thresholding, hsel]

/-- Columns of a non-selected group are zeroed by `thresholding` (for every
class row). -/
theorem thresholding_apply_not_selected (K : ℕ) (cc : List ℕ) (s : ℕ) (B : Mat) {g j : ℕ}
    (hgn : g ∉ selG K cc s B) (h1 : ofs cc g ≤ j) (h2 : j < ofs cc (g + 1)) (i : ℕ) :
    thresholding K cc s B i j = 0 := by
  have hj : j < cc.sum := lt_of_lt_of_le h2 (ofs_le_sum cc (g + 1))
  have hsel : selCol K cc s B j = false := by
    rw [Bool.eq_false_iff]
    intro hc
    obtain ⟨g', hg', h1', h2'⟩ := (selCol_eq_true_iff K cc s B j).1 hc
    exact hgn (grp_unique cc h1 h2 h1' h2' ▸ hg')
  simp [thresholding, hsel, hj]

theorem colMag_nonneg (K : ℕ) (B : Mat) (j : ℕ) : 0 ≤ colMag K B j :=
  Finset.sum_nonneg fun i _ => abs_nonneg _

/-- Column magnitudes of the thresholded matrix: retained columns keep their
magnitude, zeroed columns have magnitude `0`, columns past the array region
are untouched. -/
theorem colMag_thresholding (K : ℕ) (cc : List ℕ) (s : ℕ) (B : Mat) (j : ℕ) :
    colMag K (thresholding K cc s B) j =
      if j < cc.sum ∧ selCol K cc s B j = false then 0 else colMag K B j := by
  by_cases h : j < cc.sum ∧ selCol K cc s B j = false
  · rw [if_pos h]
    refine Finset.sum_eq_zero fun i _ => ?_
    simp [thresholding, h.1, h.2]
  · rw [if_neg h]
    refine Finset.sum_congr rfl fun i _ => ?_
    have : thresholding K cc s B i j = B i j := by
      unfold thresholding
      rw [if_neg h]
    rw [this]

/-- Score of a group in the thresholded matrix: selected groups keep their
score, real non-selected groups drop to score `0`, indices past the group
count keep their (empty-range) score. -/
theorem score_thresholding (K : ℕ) (cc : List ℕ) (s : ℕ) (B : Mat) (g : ℕ) :
    score K cc (thresholding K cc s B) g =
      if g ∈ selG K cc s B ∨ cc.length ≤ g then score K cc B g else 0 := by
  by_cases h : g ∈ selG K cc s B ∨ cc.length ≤ g
  · rw [if_pos h]
    unfold score
    congr 1
    refine Finset.sum_congr rfl fun j hj => ?_
    rw [Finset.mem_Ico] at hj
    rcases h with h | h
    · have : selCol K cc s B j = true := (selCol_eq_true_iff K cc s B j).2 ⟨g, h, hj.1, hj.2⟩
      rw [colMag_thresholding]
      simp [this]
    · exact absurd (grp_lt_of_mem cc hj.1 hj.2) (Nat.not_lt.2 h)
  · rw [if_neg h]
    push_neg at h
    unfold score
    rw [Finset.sum_eq_zero, zero_div]
    intro j hj
    rw [Finset.mem_Ico] at hj
    have hj' : j < cc.sum := lt_of_lt_of_le hj.2 (ofs_le_sum cc (g + 1))
    have hsel : selCol K cc s B j = false := by
      rw [Bool.eq_false_iff]
      intro hc
      obtain ⟨g', hg', h1', h2'⟩ := (selCol_eq_true_iff K cc s B j).1 hc
      exact h.1 (grp_unique cc hj.1 hj.2 h1' h2' ▸ hg')
    rw [colMag_thresholding]
    simp [hj', hsel]

/-- A real group with score `0` is all-zero in the array region: the score is
the mean of the column magnitudes, which are sums of absolute values. -/
theorem entries_zero_of_score_zero (K : ℕ) (cc : List ℕ) (B : Mat) {g : ℕ}
    (hg : g < cc.length) (hs : score K cc B g = 0) {j : ℕ}
    (h1 : ofs cc g ≤ j) (h2 : j < ofs cc (g + 1)) {i : ℕ} (hi : i < K) :
    B i j = 0 := by
  have hcard : cc.getD g 0 ≠ 0 := by
    intro h0
    rw [ofs_succ cc g hg, h0] at h2
    omega
  have hsum : (∑ j' ∈ Finset.Ico (ofs cc g) (ofs cc (g + 1)), |colMag K B j'|) = 0 := by
    unfold score at hs
    rcases div_eq_zero_iff.1 hs with h | h
    · exact h
    · exact absurd h (by exact_mod_cast hcard)
  have hmag : colMag K B j = 0 := by
    have h0 : |colMag K B j| = 0 := by
      have := (Finset.sum_eq_zero_iff_of_nonneg fun j' _ => abs_nonneg (colMag K B j')).1 hsum
      exact this j (Finset.mem_Ico.2 ⟨h1, h2⟩)
    exact abs_eq_zero.1 h0
  have h0 : |B i j| = 0 := by
    have := (Finset.sum_eq_zero_iff_of_nonneg fun i' _ => abs_nonneg (B i' j)).1 hmag
    exact this i (Finset.mem_range.2 hi)
  exact abs_eq_zero.1 h0

/-- If the second application of the operator selects the same groups (as
sets), then the second application changes nothing. -/
theorem thresholding_fix_of_selG_iff (K : ℕ) (cc : List ℕ) (s : ℕ) (B : Mat)
    (hmem : ∀ g, g ∈ selG K cc s (thresholding K cc s B) ↔ g ∈ selG K cc s B) :
    thresholding K cc s (thresholding K cc s B) = thresholding K cc s B := by
  have hsc : ∀ j, selCol K cc s (thresholding K cc s B) j = selCol K cc s B j := by
    intro j
    cases hB : selCol K cc s B j with
    | true =>
      obtain ⟨g, hg, h1, h2⟩ := (selCol_eq_true_iff K cc s B j).1 hB
      exact (selCol_eq_true_iff K cc s _ j).2 ⟨g, (hmem g).2 hg, h1, h2⟩
    | false =>
      rw [Bool.eq_false_iff]
      intro hT
      obtain ⟨g, hg, h1, h2⟩ := (selCol_eq_true_iff K cc s _ j).1 hT
      have : selCol K cc s B j = true :=
        (selCol_eq_true_iff K cc s B j).2 ⟨g, (hmem g).1 hg, h1, h2⟩
      rw [hB] at this
      exact Bool.false_ne_true this
  funext i j
  show (if j < cc.sum ∧ selCol K cc s (thresholding K cc s B) j = false then 0
      else thresholding K cc s B i j) = thresholding K cc s B i j
  rw [hsc j]
  by_cases h : j < cc.sum ∧ selCol K cc s B j = false
  · rw [if_pos h]
    show (0 : ℚ) = thresholding K cc s B i j
    unfold thresholding
    rw [if_pos h]
  · rw [if_neg h]

/-- C3, main theorem.  Applying `thresholding` twice with the same budget
equals applying it once.  The proof splits on whether some real non-selected
group scores non-zero: if none does, every score is preserved by the first
application, so the second ranking — a deterministic function of the scores —
is literally the same list; if one does, every selected score is strictly
positive while every group dropped by the first pass scores `0` afterwards,
so the second pass must select the same group set. -/
theorem thresholding_idem (K : ℕ) (cc : List ℕ) (s : ℕ) (B : Mat) :
    thresholding K cc s (thresholding K cc s B) = thresholding K cc s B := by
  apply thresholding_fix_of_selG_iff
  by_cases hA : ∀ g, g < cc.length → g ∉ selG K cc s B → score K cc B g = 0
  · have hscore : score K cc (thresholding K cc s B) = score K cc B := by
      funext g
      rw [score_thresholding]
      by_cases hg : g ∈ selG K cc s B ∨ cc.length ≤ g
      · rw [if_pos hg]
      · rw [if_neg hg]
        push_neg at hg
        exact (hA g hg.2 hg.1).symm
    have hkey : key K cc (thresholding K cc s B) = key K cc B := by
      funext g
      unfold key
      rw [hscore]
    have hrank : rank K cc (thresholding K cc s B) = rank K cc B := by
      unfold rank
      rw [hkey]
    intro g
    unfold selG
    rw [hrank]
  · push_neg at hA
    obtain ⟨g0, hg0lt, hg0n, hg0s⟩ := hA
    have hpos : ∀ h ∈ selG K cc s B, 0 < score K cc B h := by
      intro h hh
      have h1 : key K cc B g0 ≤ key K cc B h := key_le_of_not_selG K cc s B hg0lt hg0n hh
      have h2 : 0 < key K cc B g0 := by
        rw [key_eq_score]
        exact lt_of_le_of_ne (score_nonneg K cc B g0) (Ne.symm hg0s)
      simp only [key_eq_score] at h1 h2
      exact lt_of_lt_of_le h2 h1
    have hlen : (selG K cc s (thresholding K cc s B)).length = (selG K cc s B).length := by
      rw [selG_length, selG_length]
    have hsub : ∀ g ∈ selG K cc s B, g ∈ selG K cc s (thresholding K cc s B) := by
      intro g hg
      by_contra hgn
      have hglt : g < cc.length := mem_selG_lt K cc s B hg
      have hex : ∃ h ∈ selG K cc s (thresholding K cc s B), h ∉ selG K cc s B := by
        by_contra hno
        push_neg at hno
        have hsubT : (selG K cc s (thresholding K cc s B)).toFinset ⊆
            (selG K cc s B).toFinset := by
          intro x hx
          rw [List.mem_toFinset] at hx ⊢
          exact hno x hx
        have hcard : (selG K cc s B).toFinset.card ≤
            (selG K cc s (thresholding K cc s B)).toFinset.card := by
          rw [List.toFinset_card_of_nodup (selG_nodup K cc s B),
            List.toFinset_card_of_nodup (selG_nodup K cc s _), hlen]
        have := Finset.eq_of_subset_of_card_le hsubT hcard
        have hgmem : g ∈ (selG K cc s (thresholding K cc s B)).toFinset := by
          rw [this, List.mem_toFinset]
          exact hg
        exact hgn (List.mem_toFinset.1 hgmem)
      obtain ⟨h, hhT, hhn⟩ := hex
      have hhlt : h < cc.length := mem_selG_lt K cc s _ hhT
      have hdom : key K cc (thresholding K cc s B) g ≤ key K cc (thresholding K cc s B) h :=
        key_le_of_not_selG K cc s _ hglt hgn hhT
      have hkh : key K cc (thresholding K cc s B) h = 0 := by
        rw [key_eq_score, score_thresholding, if_neg]
        push_neg
        exact ⟨hhn, hhlt⟩
      have hkg : 0 < key K cc (thresholding K cc s B) g := by
        rw [key_eq_score, score_thresholding, if_pos (Or.inl hg)]
        exact hpos g hg
      rw [hkh] at hdom
      exact absurd hdom (not_le.2 hkg)
    have hfin : (selG K cc s B).toFinset = (selG K cc s (thresholding K cc s B)).toFinset := by
      apply Finset.eq_of_subset_of_card_le
      · intro x hx
        rw [List.mem_toFinset] at hx ⊢
        exact hsub x hx
      · rw [List.toFinset_card_of_nodup (selG_nodup K cc s B),
          List.toFinset_card_of_nodup (selG_nodup K cc s _), hlen]
    intro g
    rw [← List.mem_toFinset, ← hfin, List.mem_toFinset]

/-- C1: for every `numClasses × m` coefficient matrix and every sparsity
budget `s` with `1 ≤ s ≤ F`, the matrix returned by `thresholding`
(GroupThresholdOperator) retains exactly `s` groups, each retained group
scores no lower (by the ScoreAggregator score — the arithmetic mean over the
group's columns of the column-wise sum of absolute coefficient values across
classes) than every non-retained group, the output equals the input on every
column of a retained group, is zero on every column of every non-retained
group, and consequently at most `s` groups are non-all-zero in the output. -/
theorem thresholding_selects_top_s (K : ℕ) (cc : List ℕ) (s : ℕ) (B : Mat)
    (hs1 : 1 ≤ s) (hs2 : s ≤ cc.length) :
    (selG K cc s B).toFinset.card = s ∧
    (∀ g ∈ selG K cc s B, ∀ g' < cc.length, g' ∉ selG K cc s B →
        score K cc B g' ≤ score K cc B g) ∧
    (∀ g ∈ selG K cc s B, ∀ j, ofs cc g ≤ j → j < ofs cc (g + 1) →
        ∀ i, thresholding K cc s B i j = B i j) ∧
    (∀ g < cc.length, g ∉ selG K cc s B → ∀ j, ofs cc g ≤ j → j < ofs cc (g + 1) →
        ∀ i, thresholding K cc s B i j = 0) ∧
    ((Finset.range cc.length).filter (grpNonzero K cc (thresholding K cc s B))).card ≤ s := by
  have hcard : (selG K cc s B).toFinset.card = s := by
    rw [List.toFinset_card_of_nodup (selG_nodup K cc s B), selG_length]
    have : s ≠ 0 := by omega
    rw [if_neg this]
    omega
  refine ⟨hcard, ?_, ?_, ?_, ?_⟩
  · intro g hg g' hg' hg'n
    have := key_le_of_not_selG K cc s B hg' hg'n hg
    simpa only [key_eq_score] using this
  · intro g hg j h1 h2 i
    exact thresholding_apply_selected K cc s B hg h1 h2 i
  · intro g hg hgn j h1 h2 i
    exact thresholding_apply_not_selected K cc s B hgn h1 h2 i
  · calc ((Finset.range cc.length).filter (grpNonzero K cc (thresholding K cc s B))).card
        ≤ (selG K cc s B).toFinset.card := by
          apply Finset.card_le_card
          intro g hg
          rw [Finset.mem_filter, Finset.mem_range] at hg
          have hnz := hg.2
          unfold grpNonzero at hnz
          obtain ⟨i, hi, j, h1, h2, hne⟩ := hnz
          rw [List.mem_toFinset]
          by_contra hgn
          exact hne (thresholding_apply_not_selected K cc s B hgn h1 h2 i)
      _ = s := hcard

/-- Witness for C1 at `K = 1`, `cc = [1, 1]`, `s = 1`,
`B = [[2, 1, …]]`: the hypotheses `1 ≤ 1` and `1 ≤ 2` hold and the theorem
applies. -/
theorem thresholding_selects_top_s_witness :
    ((selG 1 [1, 1] 1 (fun _ j => if j = 0 then 2 else if j = 1 then 1 else 0)).toFinset.card
        = 1 ∧
    (∀ g ∈ selG 1 [1, 1] 1 (fun _ j => if j = 0 then 2 else if j = 1 then 1 else 0),
        ∀ g' < List.length [1, 1],
        g' ∉ selG 1 [1, 1] 1 (fun _ j => if j = 0 then 2 else if j = 1 then 1 else 0) →
        score 1 [1, 1] (fun _ j => if j = 0 then 2 else if j = 1 then 1 else 0) g' ≤
          score 1 [1, 1] (fun _ j => if j = 0 then 2 else if j = 1 then 1 else 0) g) ∧
    (∀ g ∈ selG 1 [1, 1] 1 (fun _ j => if j = 0 then 2 else if j = 1 then 1 else 0),
        ∀ j, ofs [1, 1] g ≤ j → j < ofs [1, 1] (g + 1) →
        ∀ i, thresholding 1 [1, 1] 1 (fun _ j => if j = 0 then 2 else if j = 1 then 1 else 0) i j
          = (fun (_ j : ℕ) => if j = 0 then (2 : ℚ) else if j = 1 then 1 else 0) i j) ∧
    (∀ g < List.length [1, 1],
        g ∉ selG 1 [1, 1] 1 (fun _ j => if j = 0 then 2 else if j = 1 then 1 else 0) →
        ∀ j, ofs [1, 1] g ≤ j → j < ofs [1, 1] (g + 1) →
        ∀ i, thresholding 1 [1, 1] 1 (fun _ j => if j = 0 then 2 else if j = 1 then 1 else 0) i j
          = 0) ∧
    ((Finset.range (List.length [1, 1])).filter
        (grpNonzero 1 [1, 1]
          (thresholding 1 [1, 1] 1
            (fun _ j => if j = 0 then 2 else if j = 1 then 1 else 0)))).card ≤ 1) :=
  thresholding_selects_top_s 1 [1, 1] 1
    (fun _ j => if j = 0 then 2 else if j = 1 then 1 else 0)
    (by decide) (by decide)

/-- C2, counterexample.  The claim "thresholding does not mutate its input
argument: after the call the caller's matrix is bitwise equal to its value
before the call" is false: at `K = 1`, `cc = [1, 1]`, `s = 1` and
`B = [[2, 1]]`, group 1 is dropped and the write through the view
`copyCof = coeff[:]` zeroes column 1 of the caller's array. -/
theorem thresholding_mutates_input_cex :
    thresholdingInputAfter 1 [1, 1] 1 (fun _ j => if j = 0 then 2 else if j = 1 then 1 else 0) ≠
      (fun _ j => if j = 0 then 2 else if j = 1 then 1 else 0) := by
  intro h
  have h0 := congrFun (congrFun h 0) 1
  norm_num [thresholdingInputAfter, selG, pySliceLast, rank, List.insertionSort,
    List.orderedInsert, key, score, colMag, ofs,
    show Finset.Ico (0 : ℕ) 1 = {0} from rfl, show Finset.Ico (1 : ℕ) 2 = {1} from rfl] at h0

/-- C2, amended.  After the call, the caller's array holds the thresholded
matrix — the returned value — rather than its pre-call value: the return
value `copyCof` and the caller's argument share one buffer, so the two
coincide entry for entry. -/
theorem thresholding_input_after_eq_output (K : ℕ) (cc : List ℕ) (s : ℕ) (B : Mat) :
    thresholdingInputAfter K cc s B = thresholding K cc s B := by
  funext i j
  show (if j < cc.sum ∧
        (selG K cc s B).any
          (fun g => decide (ofs cc g ≤ j) && decide (j < ofs cc (g + 1))) = false
      then 0 else B i j) =
    (if j < cc.sum ∧ selCol K cc s B j = false then 0 else B i j)
  rfl

/-! The training loop of cell 29:

```
cof = np.zeros((numClasses, DIM))
grad_regression = grad(regression)
for i in range(epoch):
    generateBatch()
    trainError = regression(cof)
    acc = accuracy_score(np.argmax(regressionTest(cof), axis=1), y_test)
    if i % 100 == 0: print(...)
    gradient = np.array(grad_regression(cof))
    cof = thresholding(cof - lr * gradient)
```

The loop body is straight-line: it contains no `break`, no `raise` and no
conditional on the computed loss, accuracy or gradient (the only conditional
prints a progress line every 100 iterations).  The loss observation and the
gradient kernel evaluate float expressions through jax; they enter the
embedding as oracle parameters `lossFn` and `gradFn`, both receiving the
iteration index (which determines the resampled batch) and the current
coefficients.  The loss observation type `L` is arbitrary — the loop only
stores it. -/

/-- One iteration's trace entry: the observed loss, whether the thresholding
call printed its diagnostic, and the updated coefficient matrix. -/
def trainGo (K : ℕ) (cc : List ℕ) (s : ℕ) (lr : ℚ) (lossFn : ℕ → Mat → L)
    (gradFn : ℕ → Mat → Mat) : ℕ → ℕ → Mat → List (L × Bool × Mat)
  | _, 0, _ => []
  | t, n + 1, B =>
    (lossFn t B, thresholdDiag K cc s (fun i j => B i j - lr * gradFn t B i j),
        thresholding K cc s (fun i j => B i j - lr * gradFn t B i j)) ::
      trainGo K cc s lr lossFn gradFn (t + 1) n
        (thresholding K cc s (fun i j => B i j - lr * gradFn t B i j))

/-- The per-iteration trace of the `for i in range(epoch)` loop, starting at
iteration index `0` from the initial coefficients. -/
def trainTrace (K : ℕ) (cc : List ℕ) (s : ℕ) (lr : ℚ) (lossFn : ℕ → Mat → L)
    (gradFn : ℕ → Mat → Mat) (epoch : ℕ) (B0 : Mat) : List (L × Bool × Mat) :=
  trainGo K cc s lr lossFn gradFn 0 epoch B0

/-- The coefficient update of one iteration:
`cof = thresholding(cof - lr * gradient)`. -/
def updateStep (K : ℕ) (cc : List ℕ) (s : ℕ) (lr : ℚ) (gradFn : ℕ → Mat → Mat)
    (t : ℕ) (B : Mat) : Mat :=
  thresholding K cc s (fun i j => B i j - lr * gradFn t B i j)

/-- The final coefficient matrix after running the loop: the fold of the
update step over the iteration indices — defined without reference to any
loss observation. -/
def trainFinal (K : ℕ) (cc : List ℕ) (s : ℕ) (lr : ℚ) (gradFn : ℕ → Mat → Mat) :
    ℕ → ℕ → Mat → Mat
  | _, 0, B => B
  | t, n + 1, B => trainFinal K cc s lr gradFn (t + 1) n (updateStep K cc s lr gradFn t B)

theorem trainGo_length (K : ℕ) (cc : List ℕ) (s : ℕ) (lr : ℚ) (lossFn : ℕ → Mat → L)
    (gradFn : ℕ → Mat → Mat) (n : ℕ) :
    ∀ (t : ℕ) (B : Mat), (trainGo K cc s lr lossFn gradFn t n B).length = n := by
  induction n with
  | zero => intro t B; rfl
  | succ n ih =>
    intro t B
    show (trainGo K cc s lr lossFn gradFn t (n + 1) B).length = n + 1
    rw [trainGo]
    simp [ih]

/-- The non-loss components of the trace do not depend on the loss oracle:
the loop never branches on the observed loss. -/
theorem trainGo_loss_indep (K : ℕ) (cc : List ℕ) (s : ℕ) (lr : ℚ)
    (lossFn : ℕ → Mat → L) (lossFn' : ℕ → Mat → L') (gradFn : ℕ → Mat → Mat) (n : ℕ) :
    ∀ (t : ℕ) (B : Mat),
      (trainGo K cc s lr lossFn gradFn t n B).map (fun e => (e.2.1, e.2.2)) =
        (trainGo K cc s lr lossFn' gradFn t n B).map (fun e => (e.2.1, e.2.2)) := by
  induction n with
  | zero => intro t B; rfl
  | succ n ih =>
    intro t B
    rw [trainGo, trainGo]
    simp only [List.map_cons]
    exact congrArg _ (ih (t + 1) _)

/-- The last coefficient matrix recorded in the trace is the fold of the
update step: the loop's final state ignores the loss observations. -/
theorem trainGo_getLastD (K : ℕ) (cc : List ℕ) (s : ℕ) (lr : ℚ) (lossFn : ℕ → Mat → L)
    (gradFn : ℕ → Mat → Mat) (n : ℕ) :
    ∀ (t : ℕ) (B : Mat),
      ((trainGo K cc s lr lossFn gradFn t n B).map (fun e => e.2.2)).getLastD B =
        trainFinal K cc s lr gradFn t n B := by
  induction n with
  | zero => intro t B; rfl
  | succ n ih =>
    intro t B
    rw [trainGo]
    simp only [List.map_cons, List.getLastD_cons]
    exact ih (t + 1) _

/-- C5, counterexample.  The claim says that when the loss contains NaN/Inf
at some iteration the loop terminates immediately at that iteration.  Take a
loss oracle that reports an invalid value (`none`, standing for a float NaN)
at every iteration, `epoch = 2`: the first trace entry's loss is the invalid
value, yet the loop still runs both iterations — the trace has length `2`,
not `1`. -/
theorem trainLoop_no_nan_check_cex :
    ((trainTrace 1 [1] 1 1 (fun _ _ => (none : Option ℚ)) (fun _ _ => fun _ _ => 1) 2
        (fun _ _ => 0)).map (fun e => e.1)).getD 0 (some 0) = none ∧
    (trainTrace 1 [1] 1 1 (fun _ _ => (none : Option ℚ)) (fun _ _ => fun _ _ => 1) 2
        (fun _ _ => 0)).length ≠ 1 := by
  constructor
  · rfl
  · rw [trainTrace, trainGo_length]
    omega

/-- C5, amended.  The loop never terminates early and never inspects the
loss: for every loss oracle, gradient oracle, epoch count and initial
coefficients, the loop executes exactly `epoch` iterations, the trace's
non-loss components are independent of the loss oracle, and the final
coefficient matrix is the plain fold of the update step, unaffected by any
invalid value the loss may take. -/
theorem trainLoop_runs_all_epochs (K : ℕ) (cc : List ℕ) (s : ℕ) (lr : ℚ)
    {L L' : Type} (lossFn : ℕ → Mat → L) (lossFn' : ℕ → Mat → L')
    (gradFn : ℕ → Mat → Mat) (epoch : ℕ) (B0 : Mat) :
    (trainTrace K cc s lr lossFn gradFn epoch B0).length = epoch ∧
    (trainTrace K cc s lr lossFn gradFn epoch B0).map (fun e => (e.2.1, e.2.2)) =
      (trainTrace K cc s lr lossFn' gradFn epoch B0).map (fun e => (e.2.1, e.2.2)) ∧
    ((trainTrace K cc s lr lossFn gradFn epoch B0).map (fun e => e.2.2)).getLastD B0 =
      trainFinal K cc s lr gradFn 0 epoch B0 := by
  exact ⟨trainGo_length K cc s lr lossFn gradFn epoch 0 B0,
    trainGo_loss_indep K cc s lr lossFn lossFn' gradFn epoch 0 B0,
    trainGo_getLastD K cc s lr lossFn gradFn epoch 0 B0⟩

/-- When the budget covers all groups (`F ≤ s`), every real group is
selected: the slice `[-s:]` of the length-`F` ranking is the whole ranking. -/
theorem selG_all (K : ℕ) (cc : List ℕ) (s : ℕ) (B : Mat) (h : cc.length ≤ s) {g : ℕ}
    (hg : g < cc.length) : g ∈ selG K cc s B := by
  unfold selG pySliceLast
  split
  · exact (mem_rank K cc B).2 hg
  · rw [rank_length]
    have : cc.length - s = 0 := by omega
    rw [this, List.drop_zero]
    exact (mem_rank K cc B).2 hg

/-- When the budget covers all groups, `thresholding` is the identity:
`notSelected` is empty and no column is written. -/
theorem thresholding_id_of_le (K : ℕ) (cc : List ℕ) (s : ℕ) (B : Mat)
    (h : cc.length ≤ s) : thresholding K cc s B = B := by
  funext i j
  unfold thresholding
  rw [if_neg]
  rintro ⟨hj, hsel⟩
  obtain ⟨g, hg, h1, h2⟩ := grp_cover cc hj
  have : selCol K cc s B j = true :=
    (selCol_eq_true_iff K cc s B j).2 ⟨g, selG_all K cc s B h hg, h1, h2⟩
  rw [this] at hsel
  exact Bool.noConfusion hsel

/-- Under `F ≤ s` the diagnostic condition `rankingBest.shape[0] < s`
reduces to `F < s`, independently of the matrix. -/
theorem thresholdDiag_of_le (K : ℕ) (cc : List ℕ) (s : ℕ) (B : Mat)
    (h : cc.length ≤ s) : thresholdDiag K cc s B = decide (cc.length < s) := by
  unfold thresholdDiag
  rw [selG_length]
  by_cases hs : s = 0
  · have h0 : cc.length = 0 := by omega
    simp [hs, h0]
  · rw [if_neg hs]
    have : cc.length - (cc.length - s) = cc.length := by omega
    rw [this]

/-- Count of diagnostic prints along a run of the loop under `F ≤ s`: one
per iteration when `F < s`, none when `F = s`. -/
theorem trainGo_countP_diag (K : ℕ) (cc : List ℕ) (s : ℕ) (lr : ℚ)
    (lossFn : ℕ → Mat → L) (gradFn : ℕ → Mat → Mat) (h : cc.length ≤ s) (n : ℕ) :
    ∀ (t : ℕ) (B : Mat),
      (trainGo K cc s lr lossFn gradFn t n B).countP (fun e => e.2.1) =
        if cc.length < s then n else 0 := by
  induction n with
  | zero => intro t B; simp [trainGo]
  | succ n ih =>
    intro t B
    rw [trainGo, List.countP_cons, ih (t + 1)]
    rw [thresholdDiag_of_le K cc s _ h]
    by_cases hlt : cc.length < s
    · simp [hlt]
    · simp [hlt]

/-- C6, counterexample.  The claim says the diagnostic fires exactly once
over the whole run when `s ≥ F`.  With `F = 1` group, budget `s = 2` and
`epoch = 2`, the diagnostic branch is taken on every one of the two
thresholding calls — the run's diagnostic count is `2`, not `1`. -/
theorem sparsity_diag_once_cex :
    (trainTrace 1 [1] 2 1 (fun _ _ => (0 : ℚ)) (fun _ _ => fun _ _ => 0) 2
        (fun _ _ => 0)).countP (fun e => e.2.1) ≠ 1 := by
  norm_num [trainTrace, trainGo, List.countP_cons, thresholdDiag, selG, pySliceLast, rank,
    List.insertionSort, List.orderedInsert]

/-- C6, amended.  When the budget covers all groups (`s ≥ F`), thresholding
is a no-op — its output equals its input for every matrix, hence at every
iteration — and the non-fatal diagnostic is surfaced once per thresholding
call: `epoch` times over a run when `F < s`, and never when `s = F` (it is
not surfaced exactly once over the run). -/
theorem sparsity_exceeds_noop_diag (K : ℕ) (cc : List ℕ) (s : ℕ) (h : cc.length ≤ s) :
    (∀ B, thresholding K cc s B = B) ∧
    (∀ (lr : ℚ) (lossFn : ℕ → Mat → ℚ) (gradFn : ℕ → Mat → Mat) (epoch : ℕ) (B0 : Mat),
      (trainTrace K cc s lr lossFn gradFn epoch B0).countP (fun e => e.2.1) =
        if cc.length < s then epoch else 0) :=
  ⟨fun B => thresholding_id_of_le K cc s B h,
    fun lr lossFn gradFn epoch B0 =>
      trainGo_countP_diag K cc s lr lossFn gradFn h epoch 0 B0⟩

/-- Witness for C6 (amended) at `K = 1`, `cc = [1]`, `s = 1`: the hypothesis
`F ≤ s` holds and the theorem applies. -/
theorem sparsity_exceeds_noop_diag_witness :
    (∀ B, thresholding 1 [1] 1 B = B) ∧
    (∀ (lr : ℚ) (lossFn : ℕ → Mat → ℚ) (gradFn : ℕ → Mat → Mat) (epoch : ℕ) (B0 : Mat),
      (trainTrace 1 [1] 1 lr lossFn gradFn epoch B0).countP (fun e => e.2.1) =
        if List.length [1] < 1 then epoch else 0) :=
  sparsity_exceeds_noop_diag 1 [1] 1 (by decide)

/-! GroupIndex: cell 22 builds `indices` by `np.cumsum` followed by
`np.insert(…, 0, 0)`, with no validation of the cardinality entries. -/

theorem scanl_add_getD : ∀ (t : List ℤ) (a : ℤ) (k : ℕ), k ≤ t.length →
    (List.scanl (· + ·) a t).getD k 0 = a + (t.take k).sum := by
  intro t
  induction t with
  | nil =>
    intro a k hk
    have hk0 : k = 0 := by simpa using hk
    subst hk0
    simp [List.scanl]
  | cons c t ih =>
    intro a k hk
    cases k with
    | zero => simp [List.scanl]
    | succ k =>
      rw [List.scanl]
      rw [List.getD_cons_succ]
      rw [ih (a + c) k (by simpa using hk)]
      simp [add_assoc]

theorem indicesOf_getD (cc : List ℤ) {k : ℕ} (hk : k ≤ cc.length) :
    (indicesOf cc).getD k 0 = (cc.take k).sum := by
  unfold indicesOf
  rw [scanl_add_getD cc 0 k hk, zero_add]

theorem indicesOf_length (cc : List ℤ) : (indicesOf cc).length = cc.length + 1 :=
  List.length_scanl 0 cc

/-- Prefix sums of a list with non-negative entries are monotone in the
prefix length. -/
theorem take_sum_mono (cc : List ℤ) (h : ∀ x ∈ cc, 0 ≤ x) {k k' : ℕ} (hkk : k ≤ k') :
    (cc.take k).sum ≤ (cc.take k').sum := by
  have hsplit : cc.take k' = (cc.take k').take k ++ (cc.take k').drop k :=
    (List.take_append_drop k (cc.take k')).symm
  rw [show cc.take k = (cc.take k').take k by rw [List.take_take, Nat.min_eq_left hkk]]
  conv_rhs => rw [hsplit]
  rw [List.sum_append]
  have : 0 ≤ ((cc.take k').drop k).sum := by
    apply List.sum_nonneg
    intro x hx
    exact h x (List.take_subset k' cc (List.drop_subset k _ hx))
  omega

/-- C7: for every cardinality vector with entries `≥ 1`, the boundary vector
has length `F + 1`, starts at `0`, satisfies
`boundaries[k] = boundaries[k-1] + cardinality[k-1]`, is monotonically
non-decreasing, and ends at the sum of the cardinalities. -/
theorem groupIndex_boundaries (cc : List ℤ) (h : ∀ x ∈ cc, 1 ≤ x) :
    (indicesOf cc).length = cc.length + 1 ∧
    (indicesOf cc).getD 0 0 = 0 ∧
    (∀ k, 1 ≤ k → k ≤ cc.length →
      (indicesOf cc).getD k 0 = (indicesOf cc).getD (k - 1) 0 + cc.getD (k - 1) 0) ∧
    (∀ k k', k ≤ k' → k' ≤ cc.length →
      (indicesOf cc).getD k 0 ≤ (indicesOf cc).getD k' 0) ∧
    (indicesOf cc).getD cc.length 0 = cc.sum := by
  refine ⟨indicesOf_length cc, by simp [indicesOf, List.scanl], ?_, ?_, ?_⟩
  · intro k hk1 hk2
    obtain ⟨k0, rfl⟩ : ∃ k0, k = k0 + 1 := ⟨k - 1, by omega⟩
    have hk0 : k0 < cc.length := by omega
    simp only [Nat.add_sub_cancel]
    rw [indicesOf_getD cc hk2, indicesOf_getD cc (le_of_lt hk0)]
    rw [List.sum_take_succ cc k0 hk0, List.getD_eq_getElem cc 0 hk0]
  · intro k k' hkk hk'
    rw [indicesOf_getD cc (le_trans hkk hk'), indicesOf_getD cc hk']
    exact take_sum_mono cc (fun x hx => le_trans zero_le_one (h x hx)) hkk
  · rw [indicesOf_getD cc (le_refl _), List.take_length]

/-- Witness for C7 at `cc = [2, 3]`: the entries are `≥ 1` and the theorem
applies. -/
theorem groupIndex_boundaries_witness :
    (indicesOf [2, 3]).length = List.length [2, 3] + 1 ∧
    (indicesOf [2, 3]).getD 0 0 = 0 ∧
    (∀ k, 1 ≤ k → k ≤ List.length [2, 3] →
      (indicesOf [2, 3]).getD k 0 = (indicesOf [2, 3]).getD (k - 1) 0 +
        List.getD [2, 3] (k - 1) 0) ∧
    (∀ k k', k ≤ k' → k' ≤ List.length [2, 3] →
      (indicesOf [2, 3]).getD k 0 ≤ (indicesOf [2, 3]).getD k' 0) ∧
    (indicesOf [2, 3]).getD (List.length [2, 3]) 0 = List.sum [2, 3] :=
  groupIndex_boundaries [2, 3] (by decide)

/-- C9, counterexample.  The claim says `GroupIndex` fails with an
`InvalidCardinality` condition when some cardinality entry is `≤ 0`.  The
source performs no validation: at the invalid cardinality vector `[-1]` the
cumsum-and-insert computation returns the boundary vector `[0, -1]` — a
normal return, not a failure. -/
theorem groupIndex_no_validation_cex :
    (-1 : ℤ) ≤ 0 ∧ indicesOf [-1] = [0, -1] := by
  constructor
  · decide
  · rfl

/-- C9, amended.  `GroupIndex` performs no validation of its cardinality
entries: on every cardinality vector, also ones containing entries `≤ 0`, it
returns the cumulative boundary vector (length `F + 1`, `k`-th entry the sum
of the first `k` cardinalities); no `InvalidCardinality` condition exists in
the code. -/
theorem groupIndex_total_on_invalid (cc : List ℤ) (h : ∃ x ∈ cc, x ≤ 0) :
    (indicesOf cc).length = cc.length + 1 ∧
    ∀ k ≤ cc.length, (indicesOf cc).getD k 0 = (cc.take k).sum :=
  ⟨indicesOf_length cc, fun _ hk => indicesOf_getD cc hk⟩

/-- Witness for C9 (amended) at `cc = [-1]`: the vector has an entry `≤ 0`
and the theorem applies. -/
theorem groupIndex_total_on_invalid_witness :
    (indicesOf [-1]).length = List.length [-1] + 1 ∧
    ∀ k ≤ List.length [-1], (indicesOf [-1]).getD k 0 = (List.take k [-1]).sum :=
  groupIndex_total_on_invalid [-1] ⟨-1, by decide, by decide⟩

/-! ClassWeighting: cell 20.

```
classW = class_weight.compute_class_weight('balanced', np.unique(label), label)
classWL = np.array([classW[uniqueClasses.index(i)] for i in label]).reshape(-1,1)
```

Samples are `0, …, n-1`, classes are `0, …, numClasses-1` (the notebook's
string labels are identified with their `LabelEncoder`/`np.unique` sorted
positions, which is also the order of the `classW` table). -/

/-- Number of samples observed with class `c` (`np.bincount` of the encoded
labels). -/
def classCountOf (n : ℕ) (y : ℕ → ℕ) (c : ℕ) : ℕ :=
  ((Finset.range n).filter (fun i => y i = c)).card

/-- Modelled from the spec: sklearn's
`class_weight.compute_class_weight('balanced', classes, y)` is external
library code absent from this repository; the spec gives the balanced scheme
`weight(c) = n / (numClasses × count(c))`. -/
def classW (n Kc : ℕ) (y : ℕ → ℕ) (c : ℕ) : ℚ :=
  (n : ℚ) / ((Kc : ℚ) * (classCountOf n y c : ℚ))

/-- From cell 20: `classWL = [classW[uniqueClasses.index(i)] for i in label]` —
the per-sample weight is the table entry of the sample's (encoded) label. -/
def classWL (n Kc : ℕ) (y : ℕ → ℕ) (i : ℕ) : ℚ :=
  classW n Kc y (y i)

/-- C8: for labels over `numClasses` classes in which every class is
observed, the weight table satisfies `weight(c) = n / (numClasses × count(c))`,
the weighted class counts sum back to `n`, and each sample's weight is the
table entry of its label. -/
theorem classWeighting_balanced (n Kc : ℕ) (y : ℕ → ℕ)
    (hy : ∀ i < n, y i < Kc) (h : ∀ c < Kc, 0 < classCountOf n y c) :
    (∀ c, classW n Kc y c = (n : ℚ) / ((Kc : ℚ) * (classCountOf n y c : ℚ))) ∧
    (∑ c ∈ Finset.range Kc, classW n Kc y c * (classCountOf n y c : ℚ) = n) ∧
    (∀ i, classWL n Kc y i = classW n Kc y (y i)) := by
  refine ⟨fun c => rfl, ?_, fun i => rfl⟩
  rcases Nat.eq_zero_or_pos Kc with hK | hK
  · subst hK
    have hn : n = 0 := by
      by_contra hn
      exact absurd (hy 0 (Nat.pos_of_ne_zero hn)) (Nat.not_lt_zero _)
    simp [hn]
  · have hterm : ∀ c ∈ Finset.range Kc,
        classW n Kc y c * (classCountOf n y c : ℚ) = (n : ℚ) / (Kc : ℚ) := by
      intro c hc
      have hcnt : (classCountOf n y c : ℚ) ≠ 0 := by
        exact_mod_cast Nat.pos_iff_ne_zero.1 (h c (Finset.mem_range.1 hc))
      unfold classW
      rw [div_mul_eq_mul_div, mul_comm (Kc : ℚ) _, ← div_div, mul_div_assoc,
        div_self hcnt, mul_one]
    rw [Finset.sum_congr rfl hterm, Finset.sum_const, Finset.card_range, nsmul_eq_mul]
    have hKQ : (Kc : ℚ) ≠ 0 := by exact_mod_cast Nat.pos_iff_ne_zero.1 hK
    rw [mul_div_cancel₀ _ hKQ]

/-- Witness for C8 at `n = 2`, `numClasses = 2`, labels `y i = i`: both
hypotheses hold and the theorem applies. -/
theorem classWeighting_balanced_witness :
    (∀ c, classW 2 2 (fun i => i) c =
      ((2 : ℕ) : ℚ) / (((2 : ℕ) : ℚ) * (classCountOf 2 (fun i => i) c : ℚ))) ∧
    (∑ c ∈ Finset.range 2, classW 2 2 (fun i => i) c * (classCountOf 2 (fun i => i) c : ℚ)
      = ((2 : ℕ) : ℚ)) ∧
    (∀ i, classWL 2 2 (fun i => i) i = classW 2 2 (fun i => i) i) :=
  classWeighting_balanced 2 2 (fun i => i) (by decide) (by decide)

/-! SoftmaxObjective: cell 27.

```
def regression(coeff):
  y = NP.exp(NP.dot(X_current, coeff.T))
  s = NP.expand_dims(NP.sum(y, axis = 1), 1)
  y = y / s
  Y_currentT = OHCL.transform(Y_current).toarray()
  label_logprobs = NP.multiply(NP.log(y), Y_currentT)
  label_logprobs = weight * label_logprobs
  return -NP.mean(label_logprobs)

def regressionTest(coeff):
  y = np.exp(np.dot(X_testC, coeff.T))
  s = np.expand_dims(np.sum(y, axis = 1), 1)
  y = y / s
  return y
```

The float computations use `exp`/`log`; the embedding works over `ℝ`.
Dimensions: the feature batch is `b × m`, coefficients are `numClasses × m`,
so the logits are `b × numClasses`.  The one-hot transform of the encoded
label batch places a `1` in the column of the sample's class id (the
`OneHotEncoder` was fitted on the sorted class values, matching the
`LabelEncoder` ids). -/

/-- Entry `(i, c)` of `np.dot(X, coeff.T)`. -/
noncomputable def logits (m : ℕ) (X B : ℕ → ℕ → ℝ) (i c : ℕ) : ℝ :=
  ∑ j ∈ Finset.range m, X i j * B c j

/-- Entry `(i, c)` of `y = np.exp(np.dot(X, coeff.T))`. -/
noncomputable def expLogits (m : ℕ) (X B : ℕ → ℕ → ℝ) (i c : ℕ) : ℝ :=
  Real.exp (logits m X B i c)

/-- Entry `i` of `s = np.sum(y, axis=1)`: the row sum of the exponentiated
logits over the `numClasses` columns. -/
noncomputable def rowSumExp (Kc m : ℕ) (X B : ℕ → ℕ → ℝ) (i : ℕ) : ℝ :=
  ∑ c ∈ Finset.range Kc, expLogits m X B i c

/-- Entry `(i, c)` of `y = y / s`: the row-normalized probability matrix. -/
noncomputable def probs (Kc m : ℕ) (X B : ℕ → ℕ → ℝ) (i c : ℕ) : ℝ :=
  expLogits m X B i c / rowSumExp Kc m X B i

/-- Entry `(i, c)` of `OHCL.transform(Y_current)`: one-hot encoding of the
label batch. -/
def onehot (y : ℕ → ℕ) (i c : ℕ) : ℝ :=
  if y i = c then 1 else 0

/-- From cell 27, `regression`: the scalar loss.  `NP.mean` over the
`b × numClasses` array of `weight * (log(y) * onehot)` is its total divided
by `b * numClasses`, and the function returns its negation. -/
noncomputable def regression (b Kc m : ℕ) (X B : ℕ → ℕ → ℝ) (y : ℕ → ℕ) (w : ℕ → ℝ) : ℝ :=
  -((∑ i ∈ Finset.range b, ∑ c ∈ Finset.range Kc,
      w i * (Real.log (probs Kc m X B i c) * onehot y i c)) / ((b : ℝ) * (Kc : ℝ)))

/-- From cell 27, `regressionTest`: the raw probability matrix for a feature
batch, used for held-out accuracy. -/
noncomputable def regressionTest (Kc m : ℕ) (X B : ℕ → ℕ → ℝ) (i c : ℕ) : ℝ :=
  probs Kc m X B i c

/-- Stated from the spec's words (§4.5), for comparison with the source's
`regression`: the row-wise softmax of the logits `features · coefficientsᵀ`
(exponentiate, normalize by row sum). -/
noncomputable def softmaxSpec (Kc m : ℕ) (X B : ℕ → ℕ → ℝ) (i c : ℕ) : ℝ :=
  Real.exp (∑ j ∈ Finset.range m, X i j * B c j) /
    ∑ c' ∈ Finset.range Kc, Real.exp (∑ j ∈ Finset.range m, X i j * B c' j)

/-- Stated from the spec's words (§4.5): the negated mean, over all
`b × numClasses` entries, of the per-sample weight times the elementwise
product of the log softmax probabilities with the one-hot labels. -/
noncomputable def softmaxObjectiveSpec (b Kc m : ℕ) (X B : ℕ → ℕ → ℝ) (y : ℕ → ℕ)
    (w : ℕ → ℝ) : ℝ :=
  -(((b : ℝ) * (Kc : ℝ))⁻¹ * ∑ i ∈ Finset.range b, ∑ c ∈ Finset.range Kc,
      w i * (Real.log (softmaxSpec Kc m X B i c) * onehot y i c))

/-- C4: the loss computed by `regression` equals the spec's formula — the
negated mean over all `b × numClasses` entries of the per-sample weight
times `log(softmax) ⊙ onehot`. -/
theorem regression_eq_softmaxObjectiveSpec (b Kc m : ℕ) (X B : ℕ → ℕ → ℝ) (y : ℕ → ℕ)
    (w : ℕ → ℝ) :
    regression b Kc m X B y w = softmaxObjectiveSpec b Kc m X B y w := by
  unfold regression softmaxObjectiveSpec softmaxSpec probs rowSumExp expLogits logits
  rw [div_eq_inv_mul]

/-- C10: each row of the probability matrix returned by `regressionTest`
sums to `1`: the row sum of exponentiated logits is a sum of strictly
positive terms over the (non-empty) class range, so the normalization makes
each row a probability distribution. -/
theorem regressionTest_rows_sum_to_one (Kc m : ℕ) (X B : ℕ → ℕ → ℝ) (hK : 0 < Kc)
    (i : ℕ) :
    ∑ c ∈ Finset.range Kc, regressionTest Kc m X B i c = 1 := by
  unfold regressionTest probs
  rw [← Finset.sum_div]
  have hpos : 0 < rowSumExp Kc m X B i := by
    apply Finset.sum_pos
    · intro c _
      exact Real.exp_pos _
    · exact Finset.nonempty_range_iff.2 (Nat.pos_iff_ne_zero.1 hK)
  exact div_self (ne_of_gt hpos)

/-- Witness for C10 at `numClasses = 1`, `m = 0`, zero features and
coefficients, row `0`: the hypothesis `0 < 1` holds and the theorem
applies. -/
theorem regressionTest_rows_sum_to_one_witness :
    ∑ c ∈ Finset.range 1, regressionTest 1 0 (fun _ _ => 0) (fun _ _ => 0) 0 c = 1 :=
  regressionTest_rows_sum_to_one 1 0 (fun _ _ => 0) (fun _ _ => 0) (by decide) 0

end IHT
